import Mathlib

/-!
# WikipediaScraper: extraction, normalisation and record emission

A shallow embedding of `main.go`: the `OnHTML` callback (element selection,
`strings.TrimSpace`, `strings.Join`, the two `regexp.ReplaceAllString` passes, the
`Page` record, `json.Marshal` and the two `file.Write` calls) and `readURLs`
(`os.Open`, `bufio.Scanner`, `strings.TrimSpace`).

Go strings are modelled as lists of Unicode code points (well-formed UTF-8).
The library routines the program calls are modelled after their documented
behaviour: `regexp` by a backtracking matcher with leftmost-first preference,
`colly` by calling the registered function once for every element the selector
matches, in document order.
-/

namespace WikipediaScraper

/-- A Go string, as its sequence of code points. -/
abbrev Str := List Char

/-! ## package unicode / strings -/

/-- The function `unicode.IsSpace`: the Latin-1 spaces and the other code points
with the White_Space property. -/
def IsSpace (c : Char) : Bool :=
  let n := c.toNat
  if n ≤ 0xFF then
    n = 0x09 || n = 0x0A || n = 0x0B || n = 0x0C || n = 0x0D || n = 0x20 || n = 0x85 || n = 0xA0
  else
    n = 0x1680 || (0x2000 ≤ n && n ≤ 0x200A) || n = 0x2028 || n = 0x2029 || n = 0x202F
      || n = 0x205F || n = 0x3000

/-- The function `strings.TrimSpace`: leading white space is cut, then trailing. -/
def TrimSpace (s : Str) : Str :=
  (s.dropWhile IsSpace).rdropWhile IsSpace

/-- The function `strings.Join`. -/
def Join (elems : List Str) (sep : Str) : Str :=
  sep.intercalate elems

/-! ## package regexp -/

/-- The fragment of regular expressions the program uses. Repetitions are greedy. -/
inductive Regex where
  | lit (c : Char)
  | cls (p : Char → Bool)
  | seq (a b : Regex)
  | star (a : Regex)
  | plus (a : Regex)
  | opt (a : Regex)

/-- What remains to be matched after a sub-expression: it receives the rest of the input. -/
abbrev Cont := Str → Option Str

/-- Greedy iteration of `step`: one more round is tried first, the continuation only
when that fails. A round that consumes nothing is not repeated. -/
def starLoop (step : Str → Cont → Option Str) : Nat → Str → Cont → Option Str
  | 0, s, k => k s
  | n + 1, s, k =>
    match step s (fun r => if r.length < s.length then starLoop step n r k else none) with
    | some r => some r
    | none => k s

/-- Backtracking search in an expression at the head of `s`; the first success in
preference order is the leftmost-first match of Go's `regexp`. -/
def Regex.run : Regex → Str → Cont → Option Str
  | .lit c, s, k =>
    match s with
    | x :: xs => if x = c then k xs else none
    | [] => none
  | .cls p, s, k =>
    match s with
    | x :: xs => if p x then k xs else none
    | [] => none
  | .seq a b, s, k => a.run s (fun r => b.run r k)
  | .star a, s, k => starLoop a.run s.length s k
  | .plus a, s, k => a.run s (fun r => starLoop a.run r.length r k)
  | .opt a, s, k =>
    match a.run s k with
    | some r => some r
    | none => k s

/-- The match of `re` that starts at the head of `s`, given by the input left after it. -/
def matchAt (re : Regex) (s : Str) : Option Str :=
  re.run s some

/-- The loop of `Regexp.replaceAll`: `afterMatch` says that the previous match ended
right here, where an empty match gets no replacement. -/
def replaceAllLoop (re : Regex) (repl : Str) : Nat → Str → Bool → Str
  | 0, s, _ => s
  | fuel + 1, s, afterMatch =>
    match matchAt re s with
    | some r =>
      if r.length < s.length then repl ++ replaceAllLoop re repl fuel r true
      else
        (if afterMatch then [] else repl) ++
          (match s with
           | [] => []
           | c :: cs => c :: replaceAllLoop re repl fuel cs false)
    | none =>
      match s with
      | [] => []
      | c :: cs => c :: replaceAllLoop re repl fuel cs false

/-- The method `Regexp.ReplaceAllString` for a replacement without `$`. -/
def ReplaceAllString (re : Regex) (src repl : Str) : Str :=
  replaceAllLoop re repl (src.length + 1) src false

/-- The class `[a-zA-Z]`. -/
def isAsciiLetter (c : Char) : Bool :=
  (97 ≤ c.toNat && c.toNat ≤ 122) || (65 ≤ c.toNat && c.toNat ≤ 90)

/-- The class `\s` of Go's regexp syntax: `[\t\n\f\r ]`. -/
def isPerlSpace (c : Char) : Bool :=
  c = '\t' || c = '\n' || c = '\x0c' || c = '\r' || c = ' '

/-- The class `[^}]`. -/
def notCloseBrace (c : Char) : Bool :=
  c != '\x7d'

/-- The group `\{[^}]*\}` of the expression below. -/
def braceGroup : Regex :=
  .seq (.lit '\x7b') (.seq (.star (.cls notCloseBrace)) (.lit '\x7d'))

/-- The expression `\\[a-zA-Z]+(\{[^}]*\})?` of main.go line 83. -/
def latexPattern : Regex :=
  .seq (.lit '\\') (.seq (.plus (.cls isAsciiLetter)) (.opt braceGroup))

/-- The expression `\s+` of main.go line 87. -/
def spacePattern : Regex :=
  .plus (.cls isPerlSpace)

/-! ## The parsed document -/

/-- A node of the parsed HTML tree: a text node, or an element with its tag name, the
tokens of its class attribute and its children. -/
inductive Node where
  | text (data : Str)
  | element (tag : Str) (classes : List Str) (children : List Node)

/-- A selector on elements, as a test of the tag name and the class tokens. -/
abbrev Selector := Str → List Str → Bool

mutual
/-- The text of an element as goquery's `Text` gives it: the text nodes below it,
concatenated in document order. -/
def Node.Text : Node → Str
  | .text d => d
  | .element _ _ cs => textOfList cs
/-- Text of a list of siblings. -/
def textOfList : List Node → Str
  | [] => []
  | n :: ns => n.Text ++ textOfList ns
end

mutual
/-- The elements of a subtree that a selector matches, the root included, in document
order (pre-order). -/
def Node.matchAll (sel : Selector) : Node → List Node
  | .text _ => []
  | .element t cl cs =>
    if sel t cl then Node.element t cl cs :: matchAllList sel cs else matchAllList sel cs
/-- Matches in a list of siblings. -/
def matchAllList (sel : Selector) : List Node → List Node
  | [] => []
  | n :: ns => n.matchAll sel ++ matchAllList sel ns
end

/-- The method `Find`: the matching descendants of a node, in document order. -/
def Node.Find (sel : Selector) : Node → List Node
  | .text _ => []
  | .element _ _ cs => matchAllList sel cs

/-- The selector `div.mw-parser-output` of main.go line 63. -/
def bodySelector : Selector := fun tag classes =>
  tag = "div".toList && classes.contains "mw-parser-output".toList

/-- The selector `h1, h2, h3, h4, h5, h6, p` of main.go line 67. -/
def textSelector : Selector := fun tag _ =>
  ["h1".toList, "h2".toList, "h3".toList, "h4".toList, "h5".toList, "h6".toList,
    "p".toList].contains tag

/-! ## package time -/

/-- A `time.Time`, by its civil fields in its own zone; `offset` is the zone's offset in
seconds east of UTC. -/
structure Time where
  year : Int
  month : Nat
  day : Nat
  hour : Nat
  minute : Nat
  second : Nat
  nanosecond : Nat
  offset : Int
  deriving DecidableEq

/-- One decimal digit. -/
def digitChar (d : Nat) : Char :=
  match d % 10 with
  | 0 => '0' | 1 => '1' | 2 => '2' | 3 => '3' | 4 => '4'
  | 5 => '5' | 6 => '6' | 7 => '7' | 8 => '8' | _ => '9'

/-- Decimal digits of `n` put before `acc`, most significant first. -/
def digitsInto : Nat → Nat → Str → Str
  | 0, _, acc => acc
  | fuel + 1, n, acc =>
    if n < 10 then digitChar n :: acc
    else digitsInto fuel (n / 10) (digitChar (n % 10) :: acc)

/-- The function `appendInt` of package time: sign, zero padding to `width`, digits. -/
def appendInt (x : Int) (width : Nat) : Str :=
  let ds := digitsInto (x.natAbs + 1) x.natAbs []
  (if x < 0 then ['-'] else []) ++ List.replicate (width - ds.length) '0' ++ ds

/-- The function `appendNano` for the layout `.999999999`: nothing for zero, else the
nine digits without their trailing zeros. -/
def appendNano (nanosec : Nat) : Str :=
  if nanosec = 0 then []
  else
    let b := ('.' :: appendInt nanosec 9).rdropWhile (fun c => c = '0')
    if b.getLast? = some '.' then b.dropLast else b

/-- The layout RFC3339Nano, as `Time.appendFormatRFC3339` writes it. -/
def Time.formatRFC3339Nano (t : Time) : Str :=
  appendInt t.year 4 ++ ['-'] ++ appendInt t.month 2 ++ ['-'] ++ appendInt t.day 2 ++ ['T']
    ++ appendInt t.hour 2 ++ [':'] ++ appendInt t.minute 2 ++ [':'] ++ appendInt t.second 2
    ++ appendNano t.nanosecond
    ++ (if t.offset = 0 then ['Z']
        else
          let zone := t.offset.natAbs / 60
          (if t.offset ≤ -60 then ['-'] else ['+'])
            ++ appendInt (zone / 60) 2 ++ [':'] ++ appendInt (zone % 60) 2)

/-- The times `Time.MarshalJSON` accepts: a year of four digits and a zone hour
below 24. -/
def Time.representable (t : Time) : Bool :=
  decide (0 ≤ t.year) && decide (t.year ≤ 9999) && decide (t.offset.natAbs / 60 / 60 < 24)

/-- The method `Time.MarshalJSON`: the quoted RFC 3339 text, or an error. -/
def Time.MarshalJSON (t : Time) : Option Str :=
  if t.representable then some (['"'] ++ t.formatRFC3339Nano ++ ['"']) else none

/-! ## package encoding/json -/

/-- A hexadecimal digit. -/
def hexChar (d : Nat) : Char :=
  match d % 16 with
  | 0 => '0' | 1 => '1' | 2 => '2' | 3 => '3' | 4 => '4' | 5 => '5' | 6 => '6' | 7 => '7'
  | 8 => '8' | 9 => '9' | 10 => 'a' | 11 => 'b' | 12 => 'c' | 13 => 'd' | 14 => 'e'
  | _ => 'f'

/-- How `json.Marshal` writes one character of a string, HTML escaping on (backspace and
form feed as Go 1.22 and later write them). -/
def escapeChar (c : Char) : Str :=
  if c = '\\' ∨ c = '"' then ['\\', c]
  else if c = '\x08' then ['\\', 'b']
  else if c = '\x0c' then ['\\', 'f']
  else if c = '\n' then ['\\', 'n']
  else if c = '\r' then ['\\', 'r']
  else if c = '\t' then ['\\', 't']
  else if c.toNat < 0x20 ∨ c = '<' ∨ c = '>' ∨ c = '&' then
    ['\\', 'u', '0', '0', hexChar (c.toNat / 16), hexChar c.toNat]
  else if c.toNat = 0x2028 ∨ c.toNat = 0x2029 then
    ['\\', 'u', '2', '0', '2', hexChar c.toNat]
  else [c]

/-- A JSON string literal. -/
def quote (s : Str) : Str :=
  ['"'] ++ s.flatMap escapeChar ++ ['"']

/-- Each Page will become one JSON object in the NDJSON file (main.go lines 17-21). -/
structure Page where
  URL : Str
  Text : Str
  CrawledAt : Time
  deriving DecidableEq

/-- The function `json.Marshal` on a `Page`: the fields in declaration order under their
tags, or no bytes and an error when the time cannot be written. -/
def Marshal (page : Page) : Option Str :=
  match page.CrawledAt.MarshalJSON with
  | none => none
  | some t =>
    some ("\x7b\"url\":".toList ++ quote page.URL ++ ",\"text\":".toList ++ quote page.Text
      ++ ",\"crawled_at\":".toList ++ t ++ "\x7d".toList)

/-! ## The OnHTML callback (main.go lines 63-103) -/

/-- Lines 64-73: the trimmed, non-empty texts of the selected elements, appended one by
one in the order `ForEach` visits them. -/
def textParts (e : Node) : List Str :=
  ((e.Find textSelector).map Node.Text).foldl
    (fun parts text =>
      let t := TrimSpace text
      if t ≠ [] then parts ++ [t] else parts)
    []

/-- Lines 84 and 88: the two replacement passes. -/
def normalise (s : Str) : Str :=
  ReplaceAllString spacePattern (ReplaceAllString latexPattern s []) [' ']

/-- Lines 80-88: join with a newline, strip, collapse. -/
def cleanText (parts : List Str) : Str :=
  normalise (Join parts ['\n'])

/-- Lines 64-95: the `Page` the callback builds, or nothing when it returns early. -/
def buildPage (e : Node) (url : Str) (now : Time) : Option Page :=
  let parts := textParts e
  if parts.length = 0 then none
  else some { URL := url, Text := cleanText parts, CrawledAt := now }

/-- The method `File.Write` on the output file: the bytes are appended. -/
def Write (file b : Str) : Str :=
  file ++ b

/-- Lines 98-102: the two writes one record causes. The error of `json.Marshal` is
discarded, and `b` is empty when there is one. -/
def emitWrites (page : Page) : List Str :=
  let b := (Marshal page).getD []
  [b, ['\n']]

/-- Lines 98-102 run without interruption. -/
def emit (file : Str) (page : Page) : Str :=
  (emitWrites page).foldl Write file

/-- The callback of line 63 on one matched element. -/
def onHTML (e : Node) (url : Str) (now : Time) (file : Str) : Str :=
  match buildPage e url now with
  | none => file
  | some page => emit file page

/-- Records emitted one after another. -/
def emitAll (file : Str) (pages : List Page) : Str :=
  pages.foldl emit file

/-! ## The collector (main.go lines 46-63 and 107-110) -/

/-- A response the collector hands to the HTML callbacks: the URL of the request, the
parsed document, and the time the clock shows at the successive runs of the callback. -/
structure Response where
  url : Str
  doc : Node
  clock : Nat → Time

/-- The callback run on the matched elements in turn; `i` counts the runs. -/
def runCallbacks (url : Str) (clock : Nat → Time) : Nat → List Node → Str → Str
  | _, [], file => file
  | i, e :: es, file => runCallbacks url clock (i + 1) es (onHTML e url (clock i) file)

/-- The collector's `handleOnHTML` for the callback registered at line 63: the function
is called for every element `div.mw-parser-output` matches, in document order. -/
def handleOnHTML (r : Response) (file : Str) : Str :=
  runCallbacks r.url r.clock 0 (r.doc.Find bodySelector) file

/-- The records the runs of the callback build, in the order of the runs. -/
def pagesFrom (url : Str) (clock : Nat → Time) : Nat → List Node → List Page
  | _, [] => []
  | i, e :: es => (buildPage e url (clock i)).toList ++ pagesFrom url clock (i + 1) es

/-- The records one response yields. -/
def pagesOf (r : Response) : List Page :=
  pagesFrom r.url r.clock 0 (r.doc.Find bodySelector)

/-- The records the visits of lines 107-110 yield, listed by URL: one entry per URL of
the list, `none` for a visit that delivers no document. The visits run at the same time
(line 48), so the order in which the records reach the file is not fixed by this list. -/
def crawlPages (visits : List (Option Response)) : List Page :=
  visits.flatMap
    (fun v =>
      match v with
      | none => []
      | some r => pagesOf r)

/-- Callbacks running at the same time. With `colly.Async(true)` (line 48) every visit is
fetched and handled in a goroutine of its own, and lines 101-102 take no lock: `pending`
holds for every worker the writes it has still to do, and the schedule names the worker
whose next write reaches the file. A single `Write` is not split. -/
def interleave : List Nat → List (List Str) → Str → Str
  | [], _, file => file
  | w :: schedule, pending, file =>
    match pending.get? w with
    | some (b :: rest) => interleave schedule (pending.set w rest) (Write file b)
    | _ => interleave schedule pending file

/-! ## readURLs (main.go lines 115-135) -/

/-- The constant `bufio.MaxScanTokenSize`. -/
def MaxScanTokenSize : Nat := 64 * 1024

/-- Length of a string in bytes. -/
def utf8Len (s : Str) : Nat :=
  (s.map Char.utf8Size).sum

/-- The errors `readURLs` can return: from `os.Open`, `bufio.ErrTooLong`, and a failed
read. -/
inductive Error where
  | notOpened
  | tooLong
  | readFailed
  deriving DecidableEq

/-- A file on disk: its contents, and whether reading it ends in an error instead of
the end of the file. -/
structure File where
  data : Str
  readFails : Bool
  deriving DecidableEq

/-- A `bufio.Scanner` with the split function `ScanLines` and the default buffer. -/
structure Scanner where
  rest : Str
  readFails : Bool
  token : Str
  err : Option Error

/-- The function `dropCR` of package bufio. -/
def dropCR (data : Str) : Str :=
  if data.getLast? = some '\r' then data.dropLast else data

/-- The method `Scanner.Scan`: the next line without its end-of-line marker, as long as
it fits the buffer; the last line needs no newline. -/
def Scanner.Scan (s : Scanner) : Bool × Scanner :=
  match s.err with
  | some _ => (false, s)
  | none =>
    match s.rest with
    | [] =>
      (false, { s with token := [], err := if s.readFails then some .readFailed else none })
    | c :: cs =>
      let line := (c :: cs).takeWhile (fun x => x != '\n')
      if MaxScanTokenSize ≤ utf8Len line then
        (false, { s with token := [], err := some .tooLong })
      else
        (true, { s with
                  token := dropCR line
                  rest := ((c :: cs).dropWhile (fun x => x != '\n')).tail })

/-- Lines 125-130: the loop over the lines. -/
def scanLoop : Nat → Scanner → List Str → Scanner × List Str
  | 0, scanner, urls => (scanner, urls)
  | fuel + 1, scanner, urls =>
    match scanner.Scan with
    | (true, scanner) =>
      let line := TrimSpace scanner.token
      scanLoop fuel scanner (if line ≠ [] then urls ++ [line] else urls)
    | (false, scanner) => (scanner, urls)

/-- Read URLs line by line from the text file: the URLs and the error, of which exactly
one is set. `fs` is the file system. -/
def readURLs (fs : Str → Option File) (filename : Str) : List Str × Option Error :=
  match fs filename with
  | none => ([], some .notOpened)
  | some file =>
    let (scanner, urls) :=
      scanLoop (file.data.length + 1) ⟨file.data, file.readFails, [], none⟩ []
    match scanner.err with
    | some err => ([], some err)
    | none => (urls, none)

/-! ## The two passes in the spec's words -/

/-- Replace every maximal run of white space (space, tab, newline, carriage return, form
feed) by one space: `inRun` says that the run the head belongs to has been replaced. -/
def collapseFrom : Bool → Str → Str
  | _, [] => []
  | inRun, c :: cs =>
    if isPerlSpace c then
      if inRun then collapseFrom true cs else ' ' :: collapseFrom true cs
    else c :: collapseFrom false cs

/-- The whitespace collapse of the spec. -/
def whitespaceCollapse (s : Str) : Str :=
  collapseFrom false s

/-- The optional brace argument at the head of `s`: the input after the first closing
brace when `s` opens a brace that is closed, else `s`. -/
def skipBraceArg : Str → Str
  | [] => []
  | c :: body =>
    if c = '\x7b' then
      match body.dropWhile notCloseBrace with
      | [] => c :: body
      | _ :: r => r
    else c :: body

/-- A control word at the head of `s`: a backslash, the longest run of one or more
letters, and one optional brace argument. The result is the input after it. -/
def latexTokenAt : Str → Option Str
  | [] => none
  | c :: rest =>
    if c = '\\' ∧ rest.head?.any isAsciiLetter = true then
      some (skipBraceArg (rest.dropWhile isAsciiLetter))
    else none

/-- Delete the control words met from left to right; `skip` characters at the head
belong to the one being deleted. -/
def latexStripFrom : Nat → Str → Str
  | _, [] => []
  | skip + 1, _ :: cs => latexStripFrom skip cs
  | 0, c :: cs =>
    match latexTokenAt (c :: cs) with
    | some r => latexStripFrom (cs.length - r.length) cs
    | none => c :: latexStripFrom 0 cs

/-- The LaTeX-ish stripping of the spec. -/
def latexStrip (s : Str) : Str :=
  latexStripFrom 0 s

/-- The line of a record in the spec's words: the compact JSON object with the keys
`url`, `text` and `crawled_at`, the time in RFC 3339. -/
def jsonLine (page : Page) : Str :=
  "\x7b\"url\":".toList ++ quote page.URL ++ ",\"text\":".toList ++ quote page.Text
    ++ ",\"crawled_at\":\"".toList ++ page.CrawledAt.formatRFC3339Nano ++ "\"\x7d".toList

/-- The URL list of the spec: the lines of the input, trimmed, the blank ones left out. -/
def urlLines (data : Str) : List Str :=
  ((data.splitOn '\n').map TrimSpace).filter (fun l => l ≠ [])

/-! ## Adjacent characters -/

/-- No two spaces side by side. -/
def spaceRel (a b : Char) : Prop := ¬ (a = ' ' ∧ b = ' ')

/-- Not a backslash with a letter right after it. -/
def tokenRel (a b : Char) : Prop := ¬ (a = '\\' ∧ isAsciiLetter b = true)

/-- Not two backslashes side by side. -/
def slashRel (a b : Char) : Prop := ¬ (a = '\\' ∧ b = '\\')

/-! ## Sample inputs -/

/-- An article body with the given children. -/
def bodyOf (children : List Node) : Node :=
  .element "div".toList ["mw-parser-output".toList] children

/-- An element with one text node. -/
def elem (tag text : String) : Node :=
  .element tag.toList [] [.text text.toList]

/-- The body `<div class="mw-parser-output"><h2>Intro</h2><p>Body.</p></div>`. -/
def introBody : Node :=
  bodyOf [elem "h2" "Intro", elem "p" "Body."]

/-- A body with the paragraph `<p>Let \mathcal{X} be \alpha.</p>`. -/
def latexBody : Node :=
  bodyOf [elem "p" "Let \\mathcal\x7bX\x7d be \\alpha."]

/-- A body with the single paragraph `\alpha`. -/
def alphaBody : Node :=
  bodyOf [elem "p" "\\alpha"]

/-- A body with the two paragraphs `\alpha` and `\beta`. -/
def alphaBetaBody : Node :=
  bodyOf [elem "p" "\\alpha", elem "p" "\\beta"]

/-- A body whose selected elements hold white space only. -/
def blankBody : Node :=
  bodyOf [elem "p" " \t", elem "h2" "\n", elem "p" ""]

/-- A body without a selected element. -/
def bareBody : Node :=
  bodyOf [elem "span" "x", .text "y".toList]

/-- A paragraph in which a backslash stands before a control word with an argument:
the six characters backslash, backslash, a, open brace, close brace, b. -/
def slashText : Str :=
  ['\\', '\\', 'a', '\x7b', '\x7d', 'b']

/-- A body with that paragraph. -/
def slashBody : Node :=
  bodyOf [.element "p".toList [] [.text slashText]]

/-- A URL. -/
def sampleURL : Str :=
  "https://en.wikipedia.org/wiki/Go".toList

/-- A time of crawling. -/
def sampleTime : Time :=
  ⟨2024, 1, 2, 15, 4, 5, 123456789, 0⟩

/-- A record. -/
def pageA : Page :=
  ⟨"https://en.wikipedia.org/wiki/A".toList, "A".toList, sampleTime⟩

/-- Another record. -/
def pageB : Page :=
  ⟨"https://en.wikipedia.org/wiki/B".toList, "B".toList, sampleTime⟩

/-- A record whose time lies in the year 10000, which `Time.MarshalJSON` refuses. -/
def lateRecord : Page :=
  ⟨sampleURL, "x".toList, ⟨10000, 1, 1, 0, 0, 0, 0, 0⟩⟩

/-- A document around the given elements. -/
def htmlOf (children : List Node) : Node :=
  .element "html".toList [] [.element "body".toList [] children]

/-- A page with one article body. -/
def introResponse : Response :=
  ⟨sampleURL, htmlOf [introBody], fun _ => sampleTime⟩

/-- A page with two elements `div.mw-parser-output` side by side. -/
def siblingsResponse : Response :=
  ⟨sampleURL, htmlOf [bodyOf [elem "p" "First."], bodyOf [elem "p" "Second."]],
    fun _ => sampleTime⟩

/-- A page with one element `div.mw-parser-output` inside another. -/
def nestedResponse : Response :=
  ⟨sampleURL, htmlOf [bodyOf [elem "p" "Outer.", bodyOf [elem "p" "Inner."]]],
    fun _ => sampleTime⟩

/-- An input file with two URLs, a blank line, surrounding blanks and a CR LF line end. -/
def sampleInput : File :=
  ⟨"https://en.wikipedia.org/wiki/A\n\n  https://en.wikipedia.org/wiki/B \r\n".toList, false⟩

/-- A file system with that one file, under the name `urls.txt`. -/
def sampleFs : Str → Option File := fun name =>
  if name = "urls.txt".toList then some sampleInput else none

/-- A page whose article body has the paragraph `Alpha.`. -/
def responseA : Response :=
  ⟨"https://en.wikipedia.org/wiki/A".toList, htmlOf [bodyOf [elem "p" "Alpha."]],
    fun _ => sampleTime⟩

/-- A page whose article body has the paragraph `Beta.`. -/
def responseB : Response :=
  ⟨"https://en.wikipedia.org/wiki/B".toList, htmlOf [bodyOf [elem "p" "Beta."]],
    fun _ => sampleTime⟩

/-- The record of the first of these pages. -/
def pageOfA : Page :=
  ⟨"https://en.wikipedia.org/wiki/A".toList, "Alpha.".toList, sampleTime⟩

/-- The record of the second. -/
def pageOfB : Page :=
  ⟨"https://en.wikipedia.org/wiki/B".toList, "Beta.".toList, sampleTime⟩

/-! ## The matcher on the two patterns -/

theorem dropWhile_eq_self_of_takeWhile_nil {α : Type} (p : α → Bool) (s : List α)
    (h : s.takeWhile p = []) : s.dropWhile p = s := by
  have := List.takeWhile_append_dropWhile p s
  rw [h] at this
  simpa using this

theorem run_cls_cons (p : Char → Bool) (x : Char) (xs : Str) (k : Cont) :
    (Regex.cls p).run (x :: xs) k = if p x = true then k xs else none := rfl

theorem run_cls_nil (p : Char → Bool) (k : Cont) : (Regex.cls p).run [] k = none := rfl

theorem run_lit_cons (c x : Char) (xs : Str) (k : Cont) :
    (Regex.lit c).run (x :: xs) k = if x = c then k xs else none := rfl

theorem run_lit_nil (c : Char) (k : Cont) : (Regex.lit c).run [] k = none := rfl

theorem starLoop_cls_some (p : Char → Bool) (k : Cont) (r : Str) :
    ∀ (n : Nat) (s : Str), (s.takeWhile p).length ≤ n → k (s.dropWhile p) = some r →
      starLoop (Regex.cls p).run n s k = some r := by
  intro n
  induction n with
  | zero =>
    intro s hn hk
    have h0 : s.takeWhile p = [] := List.length_eq_zero.mp (Nat.le_zero.mp hn)
    rw [dropWhile_eq_self_of_takeWhile_nil p s h0] at hk
    simpa [starLoop] using hk
  | succ n ih =>
    intro s hn hk
    cases s with
    | nil => simpa [starLoop, run_cls_nil] using hk
    | cons x xs =>
      by_cases hx : p x = true
      · have hn2 : (xs.takeWhile p).length ≤ n := by
          simpa [List.takeWhile_cons, hx] using hn
        have hk2 : k (xs.dropWhile p) = some r := by
          simpa [List.dropWhile_cons, hx] using hk
        simp only [starLoop, run_cls_cons, hx, if_true, List.length_cons, Nat.lt_succ_self,
          ih xs hn2 hk2]
      · have hk2 : k (x :: xs) = some r := by
          simpa [List.dropWhile_cons, hx] using hk
        simp [starLoop, run_cls_cons, hx, hk2]

theorem starLoop_cls_none (p : Char → Bool) (k : Cont) :
    ∀ (n : Nat) (s : Str), (∀ i, i ≤ (s.takeWhile p).length → k (s.drop i) = none) →
      starLoop (Regex.cls p).run n s k = none := by
  intro n
  induction n with
  | zero =>
    intro s h
    simpa [starLoop] using h 0 (Nat.zero_le _)
  | succ n ih =>
    intro s h
    have h0 : k s = none := by simpa using h 0 (Nat.zero_le _)
    cases s with
    | nil => simp [starLoop, run_cls_nil, h0]
    | cons x xs =>
      by_cases hx : p x = true
      · have h2 : ∀ i, i ≤ (xs.takeWhile p).length → k (xs.drop i) = none := by
          intro i hi
          have := h (i + 1) (by simpa [List.takeWhile_cons, hx] using hi)
          simpa using this
        simp only [starLoop, run_cls_cons, hx, if_true, List.length_cons, Nat.lt_succ_self,
          ih xs h2, h0]
      · simp [starLoop, run_cls_cons, hx, h0]

theorem matchAt_spacePattern (s : Str) :
    matchAt spacePattern s =
      if s.head?.any isPerlSpace = true then some (s.dropWhile isPerlSpace) else none := by
  cases s with
  | nil => simp [matchAt, spacePattern, Regex.run]
  | cons x xs =>
    by_cases hx : isPerlSpace x = true
    · have := starLoop_cls_some isPerlSpace some (xs.dropWhile isPerlSpace) xs.length xs
        (List.takeWhile_prefix isPerlSpace).length_le rfl
      have h2 : matchAt spacePattern (x :: xs)
          = starLoop (Regex.cls isPerlSpace).run xs.length xs some := by
        simp only [matchAt, spacePattern, Regex.run, hx, if_true]
      simp [h2, this, hx, List.dropWhile_cons]
    · simp [matchAt, spacePattern, Regex.run, hx]

theorem run_closeBrace_drop_none (body : Str) (hall : ∀ x ∈ body, notCloseBrace x = true)
    (i : Nat) : (Regex.lit '\x7d').run (body.drop i) some = none := by
  cases h : body.drop i with
  | nil => rfl
  | cons z zs =>
    have hz : z ∈ body := List.mem_of_mem_drop (h ▸ List.mem_cons_self z zs)
    have hne : z ≠ '\x7d' := by
      have := hall z hz
      simpa [notCloseBrace] using this
    simp [run_lit_cons, hne]

theorem run_optBraceGroup (t : Str) :
    (Regex.opt braceGroup).run t some = some (skipBraceArg t) := by
  cases t with
  | nil => simp [Regex.run, braceGroup, skipBraceArg]
  | cons c body =>
    by_cases hc : c = '\x7b'
    · subst hc
      have hrun : (Regex.opt braceGroup).run ('\x7b' :: body) some =
          match starLoop (Regex.cls notCloseBrace).run body.length body
              (fun r => (Regex.lit '\x7d').run r some) with
          | some r => some r
          | none => some ('\x7b' :: body) := by
        simp only [Regex.run, braceGroup, if_true]
      rw [hrun]
      cases hd : body.dropWhile notCloseBrace with
      | nil =>
        have hall : ∀ x ∈ body, notCloseBrace x = true := by
          simpa [List.dropWhile_eq_nil_iff] using hd
        rw [starLoop_cls_none notCloseBrace _ body.length body
          (fun i _ => run_closeBrace_drop_none body hall i)]
        simp [skipBraceArg, hd]
      | cons y r =>
        have hy : notCloseBrace y = false := by
          have := List.head_dropWhile_not notCloseBrace body (by simp [hd])
          simpa [hd] using this
        have hy2 : y = '\x7d' := by simpa [notCloseBrace] using hy
        have hk : (fun r => (Regex.lit '\x7d').run r some) (body.dropWhile notCloseBrace)
            = some r := by
          simp [hd, run_lit_cons, hy2]
        rw [starLoop_cls_some notCloseBrace _ r body.length body
          (List.takeWhile_prefix notCloseBrace).length_le hk]
        simp [skipBraceArg, hd]
    · simp [Regex.run, braceGroup, skipBraceArg, hc]

theorem matchAt_latexPattern (s : Str) : matchAt latexPattern s = latexTokenAt s := by
  cases s with
  | nil => rfl
  | cons c rest =>
    by_cases hc : c = '\\'
    · subst hc
      cases rest with
      | nil => rfl
      | cons x xs =>
        by_cases hx : isAsciiLetter x = true
        · have hrun : matchAt latexPattern ('\\' :: x :: xs) =
              starLoop (Regex.cls isAsciiLetter).run xs.length xs
                (fun r => (Regex.opt braceGroup).run r some) := by
            simp only [matchAt, latexPattern, Regex.run, braceGroup, hx, if_true]
          rw [hrun, starLoop_cls_some isAsciiLetter _ (skipBraceArg (xs.dropWhile isAsciiLetter))
            xs.length xs (List.takeWhile_prefix isAsciiLetter).length_le
            (run_optBraceGroup _)]
          simp [latexTokenAt, hx, List.dropWhile_cons]
        · simp [matchAt, latexPattern, Regex.run, latexTokenAt, hx]
    · simp [matchAt, latexPattern, Regex.run, latexTokenAt, hc]

/-! ## The replacement loop on the two patterns -/

theorem collapseFrom_true (s : Str) :
    collapseFrom true s = collapseFrom false (s.dropWhile isPerlSpace) := by
  induction s with
  | nil => rfl
  | cons y ys ih =>
    by_cases hy : isPerlSpace y = true
    · simp [collapseFrom, hy, ih, List.dropWhile_cons]
    · simp [collapseFrom, hy, List.dropWhile_cons]

theorem replaceAllLoop_spacePattern :
    ∀ (fuel : Nat) (s : Str) (b : Bool), s.length < fuel →
      replaceAllLoop spacePattern [' '] fuel s b = collapseFrom false s := by
  intro fuel
  induction fuel with
  | zero => intro s b h; omega
  | succ fuel ih =>
    intro s b h
    cases s with
    | nil => simp [replaceAllLoop, matchAt_spacePattern, collapseFrom]
    | cons x xs =>
      by_cases hx : isPerlSpace x = true
      · have hlen : (xs.dropWhile isPerlSpace).length < fuel :=
          lt_of_le_of_lt (List.dropWhile_suffix isPerlSpace).length_le
            (by simpa using h)
        have hlt : (xs.dropWhile isPerlSpace).length < xs.length + 1 :=
          Nat.lt_succ_of_le (List.dropWhile_suffix isPerlSpace).length_le
        simp [replaceAllLoop, matchAt_spacePattern, hx, List.dropWhile_cons, hlt,
          ih _ true hlen, collapseFrom, collapseFrom_true]
      · have hlen : xs.length < fuel := by simpa using h
        simp [replaceAllLoop, matchAt_spacePattern, hx, ih xs false hlen, collapseFrom]

theorem ReplaceAllString_spacePattern (s : Str) :
    ReplaceAllString spacePattern s [' '] = whitespaceCollapse s :=
  replaceAllLoop_spacePattern (s.length + 1) s false (Nat.lt_succ_self _)

theorem skipBraceArg_suffix (t : Str) : skipBraceArg t <:+ t := by
  cases t with
  | nil => exact List.suffix_refl _
  | cons c body =>
    by_cases hc : c = '\x7b'
    · cases hd : body.dropWhile notCloseBrace with
      | nil => simp [skipBraceArg, hc, hd]
      | cons y r =>
        have h1 : r <:+ body.dropWhile notCloseBrace := by
          rw [hd]; exact List.suffix_cons y r
        have h2 : r <:+ c :: body :=
          (h1.trans (List.dropWhile_suffix _)).trans (List.suffix_cons c body)
        simpa [skipBraceArg, hc, hd] using h2
    · simp [skipBraceArg, hc]

theorem latexTokenAt_suffix (c : Char) (cs r : Str) (h : latexTokenAt (c :: cs) = some r) :
    r <:+ cs := by
  simp only [latexTokenAt] at h
  split_ifs at h with hc
  have hr : skipBraceArg (cs.dropWhile isAsciiLetter) = r := by simpa using h
  rw [← hr]
  exact (skipBraceArg_suffix _).trans (List.dropWhile_suffix _)

theorem drop_length_sub_of_suffix {α : Type} (r cs : List α) (h : r <:+ cs) :
    cs.drop (cs.length - r.length) = r := by
  obtain ⟨t, rfl⟩ := h
  simp

theorem latexStripFrom_skip (skip : Nat) (s : Str) :
    latexStripFrom skip s = latexStripFrom 0 (s.drop skip) := by
  induction s generalizing skip with
  | nil => simp [latexStripFrom]
  | cons c cs ih =>
    cases skip with
    | zero => rfl
    | succ k => simpa [latexStripFrom] using ih k

theorem latexStripFrom_zero_cons (c : Char) (cs : Str) :
    latexStripFrom 0 (c :: cs) =
      match latexTokenAt (c :: cs) with
      | some r => latexStripFrom 0 r
      | none => c :: latexStripFrom 0 cs := by
  cases h : latexTokenAt (c :: cs) with
  | none => simp [latexStripFrom, h]
  | some r =>
    have hs := latexTokenAt_suffix c cs r h
    simp [latexStripFrom, h, latexStripFrom_skip (cs.length - r.length) cs,
      drop_length_sub_of_suffix r cs hs]

theorem replaceAllLoop_latexPattern :
    ∀ (fuel : Nat) (s : Str) (b : Bool), s.length < fuel →
      replaceAllLoop latexPattern [] fuel s b = latexStripFrom 0 s := by
  intro fuel
  induction fuel with
  | zero => intro s b h; omega
  | succ fuel ih =>
    intro s b h
    cases s with
    | nil => simp [replaceAllLoop, matchAt_latexPattern, latexTokenAt, latexStripFrom]
    | cons x xs =>
      rw [latexStripFrom_zero_cons]
      cases hm : latexTokenAt (x :: xs) with
      | none =>
        have hlen : xs.length < fuel := by simpa using h
        simp [replaceAllLoop, matchAt_latexPattern, hm, ih xs false hlen]
      | some r =>
        have hs := (latexTokenAt_suffix x xs r hm).length_le
        have hlen : r.length < fuel := lt_of_le_of_lt hs (by simpa using h)
        have hlt : r.length < xs.length + 1 := Nat.lt_succ_of_le hs
        simp [replaceAllLoop, matchAt_latexPattern, hm, hlt, ih r true hlen]

theorem ReplaceAllString_latexPattern (s : Str) :
    ReplaceAllString latexPattern s [] = latexStrip s :=
  replaceAllLoop_latexPattern (s.length + 1) s false (Nat.lt_succ_self _)

theorem normalise_eq (s : Str) : normalise s = whitespaceCollapse (latexStrip s) := by
  simp [normalise, ReplaceAllString_latexPattern, ReplaceAllString_spacePattern]

/-! ## Chains of adjacent characters -/

theorem chain'_iff_splits {α : Type} (R : α → α → Prop) (l : List α) :
    l.Chain' R ↔ ∀ pre a b post, l = pre ++ a :: b :: post → R a b := by
  constructor
  · intro h pre a b post hl
    have hin : [a, b] <:+: l := ⟨pre, post, by simp [hl]⟩
    have := h.infix hin
    simpa using this
  · intro h
    induction l with
    | nil => exact List.chain'_nil
    | cons x l ih =>
      cases l with
      | nil => exact List.chain'_singleton x
      | cons y l =>
        rw [List.chain'_cons]
        refine ⟨h [] x y l rfl, ih ?_⟩
        intro pre a b post hl
        exact h (x :: pre) a b post (by simp [hl])

/-! ## The whitespace collapse -/

theorem mem_collapseFrom (c : Char) :
    ∀ (b : Bool) (s : Str), c ∈ collapseFrom b s → c = ' ' ∨ (c ∈ s ∧ isPerlSpace c = false) := by
  intro b s
  induction s generalizing b with
  | nil => intro h; simp [collapseFrom] at h
  | cons x xs ih =>
    intro h
    by_cases hx : isPerlSpace x = true
    · cases b with
      | true =>
        have h2 : c ∈ collapseFrom true xs := by simpa [collapseFrom, hx] using h
        rcases ih true h2 with h3 | h3
        · exact Or.inl h3
        · exact Or.inr ⟨List.mem_cons_of_mem _ h3.1, h3.2⟩
      | false =>
        have h2 : c = ' ' ∨ c ∈ collapseFrom true xs := by simpa [collapseFrom, hx] using h
        rcases h2 with h2 | h2
        · exact Or.inl h2
        · rcases ih true h2 with h3 | h3
          · exact Or.inl h3
          · exact Or.inr ⟨List.mem_cons_of_mem _ h3.1, h3.2⟩
    · have hx2 : isPerlSpace x = false := by simpa using hx
      have h2 : c = x ∨ c ∈ collapseFrom false xs := by simpa [collapseFrom, hx] using h
      rcases h2 with h2 | h2
      · subst h2; exact Or.inr ⟨List.mem_cons_self _ _, hx2⟩
      · rcases ih false h2 with h3 | h3
        · exact Or.inl h3
        · exact Or.inr ⟨List.mem_cons_of_mem _ h3.1, h3.2⟩

theorem isPerlSpace_of_mem_collapseFrom (c : Char) (b : Bool) (s : Str)
    (h : c ∈ collapseFrom b s) (hc : isPerlSpace c = true) : c = ' ' := by
  rcases mem_collapseFrom c b s h with h1 | h1
  · exact h1
  · rw [h1.2] at hc; cases hc

theorem collapseFrom_spaceRel :
    ∀ (s : Str) (b : Bool), (collapseFrom b s).Chain' spaceRel ∧
      (b = true → ∀ y ∈ (collapseFrom b s).head?, y ≠ ' ') := by
  intro s
  induction s with
  | nil => intro b; simp [collapseFrom]
  | cons x xs ih =>
    intro b
    by_cases hx : isPerlSpace x = true
    · cases b with
      | true => simpa [collapseFrom, hx] using ih true
      | false =>
        have h := ih true
        refine ⟨?_, by simp⟩
        simp only [collapseFrom, hx, if_true, Bool.false_eq_true, if_false]
        rw [List.chain'_cons']
        exact ⟨fun y hy hxy => (h.2 rfl y hy) hxy.2, h.1⟩
    · have hne : x ≠ ' ' := by
        intro hsp; subst hsp; exact hx (by decide)
      have h := ih false
      simp only [collapseFrom, hx, if_false, Bool.false_eq_true]
      refine ⟨?_, ?_⟩
      · rw [List.chain'_cons']
        exact ⟨fun y _ hxy => hne hxy.1, h.1⟩
      · intro _ y hy
        simp at hy
        rw [← hy]; exact hne

theorem collapseFrom_false_fixed (t : Str)
    (hsp : ∀ c ∈ t, isPerlSpace c = true → c = ' ') (hch : t.Chain' spaceRel) :
    collapseFrom false t = t := by
  induction t with
  | nil => rfl
  | cons c cs ih =>
    have ih2 := ih (fun d hd => hsp d (List.mem_cons_of_mem _ hd)) hch.tail
    by_cases hc : isPerlSpace c = true
    · have hceq : c = ' ' := hsp c (List.mem_cons_self _ _) hc
      have hdrop : cs.dropWhile isPerlSpace = cs := by
        cases cs with
        | nil => rfl
        | cons d ds =>
          have hrel : spaceRel c d := by
            rw [List.chain'_cons] at hch; exact hch.1
          have hd : ¬ isPerlSpace d = true := by
            intro hd
            have := hsp d (by simp) hd
            exact hrel ⟨hceq, this⟩
          simp [List.dropWhile_cons, hd]
      simp [collapseFrom, hc, collapseFrom_true, hdrop, ih2, hceq]
    · simp [collapseFrom, hc, ih2]

theorem whitespaceCollapse_idem (s : Str) :
    whitespaceCollapse (whitespaceCollapse s) = whitespaceCollapse s :=
  collapseFrom_false_fixed _
    (fun c hc hsp => isPerlSpace_of_mem_collapseFrom c false s hc hsp)
    (collapseFrom_spaceRel s false).1

theorem head?_collapseFrom_false (s : Str) :
    (collapseFrom false s).head? = s.head?.map (fun d => if isPerlSpace d = true then ' ' else d) := by
  cases s with
  | nil => rfl
  | cons x xs =>
    by_cases hx : isPerlSpace x = true <;> simp [collapseFrom, hx]

theorem collapseFrom_tokenRel :
    ∀ (s : Str) (b : Bool), s.Chain' tokenRel → (collapseFrom b s).Chain' tokenRel := by
  intro s
  induction s with
  | nil => intro b _; simp [collapseFrom]
  | cons x xs ih =>
    intro b h
    by_cases hx : isPerlSpace x = true
    · cases b with
      | true => simpa [collapseFrom, hx] using ih true h.tail
      | false =>
        simp only [collapseFrom, hx, if_true, Bool.false_eq_true, if_false]
        rw [List.chain'_cons']
        exact ⟨fun y _ hxy => by have := hxy.1; exact absurd this (by decide), ih true h.tail⟩
    · simp only [collapseFrom, hx, if_false, Bool.false_eq_true]
      rw [List.chain'_cons']
      refine ⟨?_, ih false h.tail⟩
      intro y hy hxy
      rw [head?_collapseFrom_false] at hy
      cases xs with
      | nil => simp at hy
      | cons d ds =>
        have hrel : tokenRel x d := by
          rw [List.chain'_cons] at h; exact h.1
        by_cases hd : isPerlSpace d = true
        · have hy2 : y = ' ' := by simpa [hd] using hy.symm
          rw [hy2] at hxy
          exact absurd hxy.2 (by decide)
        · have hy2 : y = d := by simpa [hd] using hy.symm
          rw [hy2] at hxy
          exact hrel hxy

/-! ## The LaTeX stripping -/

theorem latexTokenAt_none_of_ne (c : Char) (cs : Str) (h : c ≠ '\\') :
    latexTokenAt (c :: cs) = none := by
  simp [latexTokenAt, h]

theorem latexStripFrom_tokenRel :
    ∀ (n : Nat) (s : Str), s.length ≤ n → s.Chain' slashRel →
      (latexStripFrom 0 s).Chain' tokenRel := by
  intro n
  induction n with
  | zero =>
    intro s hn _
    have : s = [] := List.length_eq_zero.mp (Nat.le_zero.mp hn)
    subst this
    simp [latexStripFrom]
  | succ n ih =>
    intro s hn hch
    cases s with
    | nil => simp [latexStripFrom]
    | cons c cs =>
      have hlen : cs.length ≤ n := by simpa using hn
      rw [latexStripFrom_zero_cons]
      cases hm : latexTokenAt (c :: cs) with
      | some r =>
        have hs := latexTokenAt_suffix c cs r hm
        exact ih r (le_trans hs.length_le hlen) (hch.tail.suffix hs)
      | none =>
        show (c :: latexStripFrom 0 cs).Chain' tokenRel
        rw [List.chain'_cons']
        refine ⟨?_, ih cs hlen hch.tail⟩
        intro y hy hcy
        obtain ⟨hc, hletter⟩ := hcy
        cases cs with
        | nil => simp [latexStripFrom] at hy
        | cons d ds =>
          have hrel : slashRel c d := by
            rw [List.chain'_cons] at hch; exact hch.1
          have hd : d ≠ '\\' := fun hd => hrel ⟨hc, hd⟩
          have hd2 : isAsciiLetter d = false := by
            by_contra hcon
            have hcon2 : isAsciiLetter d = true := by simpa using hcon
            simp [latexTokenAt, hc, hcon2] at hm
          rw [latexStripFrom_zero_cons, latexTokenAt_none_of_ne d ds hd] at hy
          have hy2 : d = y := by simpa using hy
          rw [← hy2, hd2] at hletter
          cases hletter

theorem latexStrip_tokenRel (s : Str) (h : s.Chain' slashRel) :
    (latexStrip s).Chain' tokenRel :=
  latexStripFrom_tokenRel s.length s le_rfl h

theorem latexStrip_fixed (t : Str) (h : t.Chain' tokenRel) : latexStrip t = t := by
  unfold latexStrip
  induction t with
  | nil => rfl
  | cons c cs ih =>
    have hnone : latexTokenAt (c :: cs) = none := by
      cases cs with
      | nil => simp [latexTokenAt]
      | cons d ds =>
        have hrel : tokenRel c d := by
          rw [List.chain'_cons] at h; exact h.1
        by_cases hc : c = '\\'
        · have hd : isAsciiLetter d = false := by
            by_contra hcon
            exact hrel ⟨hc, by simpa using hcon⟩
          simp [latexTokenAt, hd]
        · exact latexTokenAt_none_of_ne c _ hc
    rw [latexStripFrom_zero_cons, hnone]
    simp [ih h.tail]

theorem normalise_tokenRel (s : Str) (h : s.Chain' slashRel) :
    (normalise s).Chain' tokenRel := by
  rw [normalise_eq]
  exact collapseFrom_tokenRel _ false (latexStrip_tokenRel s h)

theorem normalise_idem_of_slashRel (s : Str) (h : s.Chain' slashRel) :
    normalise (normalise s) = normalise s := by
  have h2 := normalise_tokenRel s h
  rw [normalise_eq (normalise s), latexStrip_fixed _ h2, normalise_eq s, whitespaceCollapse_idem]

/-! ## The callback -/

theorem foldl_parts (l : List Str) (acc : List Str) :
    l.foldl (fun parts text =>
        let t := TrimSpace text
        if t ≠ [] then parts ++ [t] else parts) acc
      = acc ++ (l.map TrimSpace).filter (fun t => t ≠ []) := by
  induction l generalizing acc with
  | nil => simp
  | cons x xs ih =>
    rw [List.foldl_cons, ih]
    by_cases hx : TrimSpace x = []
    · simp [hx]
    · simp [hx]

theorem textParts_eq (e : Node) :
    textParts e = (((e.Find textSelector).map Node.Text).map TrimSpace).filter (fun t => t ≠ []) := by
  rw [textParts, foldl_parts, List.nil_append]

theorem textParts_eq_nil_iff (e : Node) :
    textParts e = [] ↔ ∀ t ∈ (e.Find textSelector).map Node.Text, TrimSpace t = [] := by
  rw [textParts_eq]
  simp [List.filter_eq_nil_iff]

theorem buildPage_of_ne_nil (e : Node) (url : Str) (now : Time) (h : textParts e ≠ []) :
    buildPage e url now = some ⟨url, cleanText (textParts e), now⟩ := by
  have hlen : ¬ (textParts e).length = 0 := fun h0 => h (List.length_eq_zero.mp h0)
  simp [buildPage, hlen]

theorem buildPage_of_parts (e : Node) (url : Str) (now : Time) (h : textParts e ≠ []) :
    buildPage e url now = some
      { URL := url, Text := whitespaceCollapse (latexStrip (Join (textParts e) ['\n'])),
        CrawledAt := now } := by
  have hlen : ¬ (textParts e).length = 0 := fun h0 => h (List.length_eq_zero.mp h0)
  simp [buildPage, hlen, cleanText, normalise_eq]

theorem buildPage_eq_none_iff (e : Node) (url : Str) (now : Time) :
    buildPage e url now = none ↔ textParts e = [] := by
  by_cases h : textParts e = []
  · simp [buildPage, h]
  · simp [buildPage_of_parts e url now h, h]

theorem Join_nil (sep : Str) : Join [] sep = [] := rfl

theorem Join_singleton (a sep : Str) : Join [a] sep = a := by
  simp [Join, List.intercalate]

theorem Join_cons_cons (a b : Str) (l : List Str) (sep : Str) :
    Join (a :: b :: l) sep = a ++ sep ++ Join (b :: l) sep := by
  simp [Join, List.intercalate]

theorem Join_slashRel (parts : List Str) (h : ∀ p ∈ parts, p.Chain' slashRel) :
    (Join parts ['\n']).Chain' slashRel := by
  induction parts with
  | nil => simp [Join_nil]
  | cons a l ih =>
    cases l with
    | nil => simpa [Join_singleton] using h a (by simp)
    | cons b l =>
      rw [Join_cons_cons, List.append_assoc]
      have h2 : (['\n'] ++ Join (b :: l) ['\n']).Chain' slashRel := by
        rw [List.singleton_append, List.chain'_cons']
        exact ⟨fun y _ hy => absurd hy.1 (by decide),
          ih (fun p hp => h p (List.mem_cons_of_mem _ hp))⟩
      refine List.Chain'.append (h a (by simp)) h2 ?_
      intro x _ y hy hxy
      simp at hy
      rw [← hy] at hxy
      exact absurd hxy.2 (by decide)

theorem TrimSpace_inside (t : Str) : TrimSpace t <:+: t :=
  (List.rdropWhile_prefix IsSpace _).isInfix.trans (List.dropWhile_suffix IsSpace).isInfix

theorem textParts_slashRel (e : Node)
    (h : ∀ t ∈ (e.Find textSelector).map Node.Text, t.Chain' slashRel) :
    ∀ p ∈ textParts e, p.Chain' slashRel := by
  intro p hp
  rw [textParts_eq] at hp
  obtain ⟨hp1, _⟩ := List.mem_filter.mp hp
  obtain ⟨t, ht, rfl⟩ := List.mem_map.mp hp1
  exact List.Chain'.infix (h t ht) (TrimSpace_inside t)

/-! ## The claims on the extracted text -/

/-- C1: for a body whose selected elements have at least one text that is non-empty after
trimming, the record built has the text whitespaceCollapse (latexStrip (join "\n"
[trim t | trim t non-empty])), with the two passes as the spec words them; the elements
"Intro", "Body." give "Intro Body." and the element "Let \mathcal{X} be \alpha." gives
"Let be .". -/
theorem C1_text_of_record :
    (∀ (e : Node) (url : Str) (now : Time),
      (∃ t ∈ (e.Find textSelector).map Node.Text, TrimSpace t ≠ []) →
      buildPage e url now = some
        { URL := url
          Text := whitespaceCollapse (latexStrip (Join
            ((((e.Find textSelector).map Node.Text).map TrimSpace).filter (fun t => t ≠ []))
            ['\n']))
          CrawledAt := now }) ∧
    (∀ (url : Str) (now : Time),
      buildPage introBody url now = some ⟨url, "Intro Body.".toList, now⟩) ∧
    (∀ (url : Str) (now : Time),
      buildPage latexBody url now = some ⟨url, "Let be .".toList, now⟩) := by
  refine ⟨?_, ?_, ?_⟩
  · intro e url now h
    have hne : textParts e ≠ [] := by
      intro h0
      obtain ⟨t, ht, hnt⟩ := h
      exact hnt ((textParts_eq_nil_iff e).mp h0 t ht)
    rw [buildPage_of_parts e url now hne, textParts_eq]
  · intro url now
    have h1 : textParts introBody = ["Intro".toList, "Body.".toList] := by decide
    have h2 : cleanText ["Intro".toList, "Body.".toList] = "Intro Body.".toList := by decide
    rw [buildPage_of_ne_nil _ url now (by rw [h1]; exact List.cons_ne_nil _ _), h1, h2]
  · intro url now
    have h1 : textParts latexBody = ["Let \\mathcal\x7bX\x7d be \\alpha.".toList] := by decide
    have h2 : cleanText ["Let \\mathcal\x7bX\x7d be \\alpha.".toList] = "Let be .".toList := by
      decide
    rw [buildPage_of_ne_nil _ url now (by rw [h1]; exact List.cons_ne_nil _ _), h1, h2]

/-- C1 at the body with a heading and a paragraph. -/
theorem C1_text_of_record_witness :
    (∃ t ∈ (introBody.Find textSelector).map Node.Text, TrimSpace t ≠ []) ∧
    buildPage introBody sampleURL sampleTime = some
      { URL := sampleURL
        Text := whitespaceCollapse (latexStrip (Join
          ((((introBody.Find textSelector).map Node.Text).map TrimSpace).filter
            (fun t => t ≠ [])) ['\n']))
        CrawledAt := sampleTime } :=
  have h : ∃ t ∈ (introBody.Find textSelector).map Node.Text, TrimSpace t ≠ [] :=
    ⟨"Intro".toList, by decide, by decide⟩
  ⟨h, C1_text_of_record.1 introBody sampleURL sampleTime h⟩

/-- C6: a record is built exactly when some selected element has non-empty text after
trimming; a body without such an element leaves the output untouched, and a body with
one emits its record as it is, also when the normalised text is empty (the element
"\alpha") or a single space (the elements "\alpha" and "\beta"). -/
theorem C6_record_iff_nonempty_element :
    (∀ (e : Node) (url : Str) (now : Time),
      (buildPage e url now).isSome = true ↔
        ∃ t ∈ (e.Find textSelector).map Node.Text, TrimSpace t ≠ []) ∧
    (∀ (e : Node) (url : Str) (now : Time) (file : Str),
      (∀ t ∈ (e.Find textSelector).map Node.Text, TrimSpace t = []) →
        onHTML e url now file = file) ∧
    (∀ (e : Node) (url : Str) (now : Time) (file : Str),
      (∃ t ∈ (e.Find textSelector).map Node.Text, TrimSpace t ≠ []) →
        onHTML e url now file = emit file ⟨url, cleanText (textParts e), now⟩ ∧
        onHTML e url now file ≠ file) ∧
    (∀ (url : Str) (now : Time),
      buildPage bareBody url now = none ∧ buildPage blankBody url now = none ∧
      buildPage alphaBody url now = some ⟨url, [], now⟩ ∧
      buildPage alphaBetaBody url now = some ⟨url, [' '], now⟩) := by
  have key : ∀ e : Node, textParts e ≠ [] ↔
      ∃ t ∈ (e.Find textSelector).map Node.Text, TrimSpace t ≠ [] := by
    intro e
    rw [Ne, textParts_eq_nil_iff]
    push_neg
    rfl
  refine ⟨?_, ?_, ?_, ?_⟩
  · intro e url now
    rw [← key, Option.isSome_iff_ne_none, Ne, buildPage_eq_none_iff]
  · intro e url now file h
    have h0 : buildPage e url now = none :=
      (buildPage_eq_none_iff e url now).mpr ((textParts_eq_nil_iff e).mpr h)
    simp [onHTML, h0]
  · intro e url now file h
    have hb := buildPage_of_ne_nil e url now ((key e).mpr h)
    have h1 : onHTML e url now file = emit file ⟨url, cleanText (textParts e), now⟩ := by
      simp [onHTML, hb]
    refine ⟨h1, ?_⟩
    rw [h1]
    intro hfile
    have hlen := congrArg List.length hfile
    simp [emit, emitWrites, Write] at hlen
  · intro url now
    have h1 : textParts bareBody = [] := by decide
    have h2 : textParts blankBody = [] := by decide
    have h3 : textParts alphaBody = ["\\alpha".toList] := by decide
    have h4 : textParts alphaBetaBody = ["\\alpha".toList, "\\beta".toList] := by decide
    have h5 : cleanText ["\\alpha".toList] = [] := by decide
    have h6 : cleanText ["\\alpha".toList, "\\beta".toList] = [' '] := by decide
    refine ⟨(buildPage_eq_none_iff _ url now).mpr h1, (buildPage_eq_none_iff _ url now).mpr h2,
      ?_, ?_⟩
    · rw [buildPage_of_ne_nil _ url now (by rw [h3]; exact List.cons_ne_nil _ _), h3, h5]
    · rw [buildPage_of_ne_nil _ url now (by rw [h4]; exact List.cons_ne_nil _ _), h4, h6]

/-- C6 at a body whose only text is a control word. -/
theorem C6_record_iff_nonempty_element_witness :
    (∃ t ∈ (alphaBody.Find textSelector).map Node.Text, TrimSpace t ≠ []) ∧
    onHTML alphaBody sampleURL sampleTime [] =
      emit [] ⟨sampleURL, cleanText (textParts alphaBody), sampleTime⟩ :=
  have h : ∃ t ∈ (alphaBody.Find textSelector).map Node.Text, TrimSpace t ≠ [] :=
    ⟨"\\alpha".toList, by decide, by decide⟩
  ⟨h, (C6_record_iff_nonempty_element.2.2.1 alphaBody sampleURL sampleTime [] h).1⟩

/-- C4: the text of every record built has no newline, tab or carriage return and no two
spaces side by side. -/
theorem C4_text_is_one_line (e : Node) (url : Str) (now : Time) (page : Page)
    (h : buildPage e url now = some page) :
    '\n' ∉ page.Text ∧ '\t' ∉ page.Text ∧ '\r' ∉ page.Text ∧
      ∀ pre post, page.Text ≠ pre ++ ' ' :: ' ' :: post := by
  have hne : textParts e ≠ [] := by
    intro h0
    rw [(buildPage_eq_none_iff e url now).mpr h0] at h
    cases h
  rw [buildPage_of_parts e url now hne] at h
  have hp : page.Text = collapseFrom false (latexStrip (Join (textParts e) ['\n'])) := by
    cases h; rfl
  rw [hp]
  have hmem : ∀ c : Char, isPerlSpace c = true → c ≠ ' ' →
      c ∉ collapseFrom false (latexStrip (Join (textParts e) ['\n'])) := by
    intro c hc hsp hin
    exact hsp (isPerlSpace_of_mem_collapseFrom c false _ hin hc)
  refine ⟨hmem _ (by decide) (by decide), hmem _ (by decide) (by decide),
    hmem _ (by decide) (by decide), ?_⟩
  intro pre post heq
  have hch := (collapseFrom_spaceRel (latexStrip (Join (textParts e) ['\n'])) false).1
  exact (chain'_iff_splits spaceRel _).mp hch pre ' ' ' ' post heq ⟨rfl, rfl⟩

/-- C4 at the body with a heading and a paragraph. -/
theorem C4_text_is_one_line_witness :
    buildPage introBody sampleURL sampleTime = some ⟨sampleURL, "Intro Body.".toList, sampleTime⟩ ∧
    ('\n' ∉ "Intro Body.".toList ∧ '\t' ∉ "Intro Body.".toList ∧ '\r' ∉ "Intro Body.".toList ∧
      ∀ pre post, "Intro Body.".toList ≠ pre ++ ' ' :: ' ' :: post) :=
  have h : buildPage introBody sampleURL sampleTime
      = some ⟨sampleURL, "Intro Body.".toList, sampleTime⟩ := by decide
  ⟨h, C4_text_is_one_line introBody sampleURL sampleTime _ h⟩

/-- C2, refuted as stated: the text backslash, backslash, a, open brace, close brace, b
normalises to backslash, b, in which a letter follows a backslash; the record of a body
with that paragraph has this text. -/
theorem C2_counterexample :
    normalise slashText = ['\\', 'b'] ∧
    (∃ pre c post, normalise slashText = pre ++ '\\' :: c :: post ∧ isAsciiLetter c = true) ∧
    buildPage slashBody sampleURL sampleTime = some ⟨sampleURL, ['\\', 'b'], sampleTime⟩ :=
  ⟨by decide, ⟨[], 'b', [], by decide, by decide⟩, by decide⟩

/-- C2, amended: when the input has no two backslashes side by side, its normalisation
has no backslash with an ASCII letter right after it; so has the text of a record when
no selected element's text has two backslashes side by side. -/
theorem C2_no_control_word_left :
    (∀ s : Str, (∀ pre post, s ≠ pre ++ '\\' :: '\\' :: post) →
      ∀ pre c post, normalise s = pre ++ '\\' :: c :: post → isAsciiLetter c = false) ∧
    (∀ (e : Node) (url : Str) (now : Time) (page : Page), buildPage e url now = some page →
      (∀ t ∈ (e.Find textSelector).map Node.Text, ∀ pre post, t ≠ pre ++ '\\' :: '\\' :: post) →
      ∀ pre c post, page.Text = pre ++ '\\' :: c :: post → isAsciiLetter c = false) := by
  have key : ∀ s : Str, s.Chain' slashRel →
      ∀ pre c post, normalise s = pre ++ '\\' :: c :: post → isAsciiLetter c = false := by
    intro s hs pre c post heq
    have h := (chain'_iff_splits tokenRel _).mp (normalise_tokenRel s hs) pre '\\' c post heq
    by_contra hc
    exact h ⟨rfl, by simpa using hc⟩
  have toChain : ∀ s : Str, (∀ pre post, s ≠ pre ++ '\\' :: '\\' :: post) → s.Chain' slashRel := by
    intro s hs
    rw [chain'_iff_splits]
    intro pre a b post heq hab
    obtain ⟨ha, hb⟩ := hab
    subst ha; subst hb
    exact hs pre post heq
  refine ⟨fun s hs => key s (toChain s hs), ?_⟩
  intro e url now page hb ht
  have hne : textParts e ≠ [] := by
    intro h0
    rw [(buildPage_eq_none_iff e url now).mpr h0] at hb
    cases hb
  rw [buildPage_of_ne_nil e url now hne] at hb
  have hp : page.Text = normalise (Join (textParts e) ['\n']) := by
    cases hb; rfl
  rw [hp]
  exact key _ (Join_slashRel _ (textParts_slashRel e (fun t htm => toChain t (ht t htm))))

/-- C2 (amended) at the text "Let \mathcal{X} be \alpha.". -/
theorem C2_no_control_word_left_witness :
    (∀ pre post, "Let \\mathcal\x7bX\x7d be \\alpha.".toList ≠ pre ++ '\\' :: '\\' :: post) ∧
    (∀ pre c post, normalise "Let \\mathcal\x7bX\x7d be \\alpha.".toList = pre ++ '\\' :: c :: post →
      isAsciiLetter c = false) :=
  have h : ∀ pre post, "Let \\mathcal\x7bX\x7d be \\alpha.".toList ≠ pre ++ '\\' :: '\\' :: post :=
    fun pre post heq =>
      (chain'_iff_splits slashRel _).mp (by simp [slashRel]) pre '\\' '\\' post heq
        ⟨rfl, rfl⟩
  ⟨h, C2_no_control_word_left.1 _ h⟩

/-- C3, refuted as stated: normalising the text backslash, backslash, a, open brace, close
brace, b gives backslash, b, and normalising that gives the empty text. -/
theorem C3_counterexample :
    normalise slashText = ['\\', 'b'] ∧ normalise (normalise slashText) = [] ∧
    normalise (normalise slashText) ≠ normalise slashText :=
  ⟨by decide, by decide, by decide⟩

/-- C3, amended: on every input without two backslashes side by side the normalisation
is idempotent. -/
theorem C3_normalise_idempotent (s : Str) (h : ∀ pre post, s ≠ pre ++ '\\' :: '\\' :: post) :
    normalise (normalise s) = normalise s := by
  apply normalise_idem_of_slashRel
  rw [chain'_iff_splits]
  intro pre a b post heq hab
  obtain ⟨ha, hb⟩ := hab
  subst ha; subst hb
  exact h pre post heq

/-- C3 (amended) at a text with a control word, two spaces and a line break. -/
theorem C3_normalise_idempotent_witness :
    (∀ pre post, "a  \\alpha\x7bx\x7d \n b".toList ≠ pre ++ '\\' :: '\\' :: post) ∧
    normalise (normalise "a  \\alpha\x7bx\x7d \n b".toList) =
      normalise "a  \\alpha\x7bx\x7d \n b".toList :=
  have h : ∀ pre post, "a  \\alpha\x7bx\x7d \n b".toList ≠ pre ++ '\\' :: '\\' :: post :=
    fun pre post heq =>
      (chain'_iff_splits slashRel _).mp (by simp [slashRel]) pre '\\' '\\' post heq
        ⟨rfl, rfl⟩
  ⟨h, C3_normalise_idempotent _ h⟩

/-! ## The serialised record -/

theorem digitChar_ne_newline (d : Nat) : digitChar d ≠ '\n' := by
  unfold digitChar
  split <;> decide

theorem hexChar_ne_newline (d : Nat) : hexChar d ≠ '\n' := by
  unfold hexChar
  split <;> decide

theorem newline_not_mem_digitsInto :
    ∀ (fuel n : Nat) (acc : Str), '\n' ∉ acc → '\n' ∉ digitsInto fuel n acc := by
  intro fuel
  induction fuel with
  | zero => intro n acc h; simpa [digitsInto] using h
  | succ fuel ih =>
    intro n acc h
    unfold digitsInto
    split_ifs with hn
    · simp only [List.mem_cons, not_or]
      exact ⟨fun hc => digitChar_ne_newline n hc.symm, h⟩
    · apply ih
      simp only [List.mem_cons, not_or]
      exact ⟨fun hc => digitChar_ne_newline _ hc.symm, h⟩

theorem newline_not_mem_appendInt (x : Int) (width : Nat) : '\n' ∉ appendInt x width := by
  unfold appendInt
  simp only [List.mem_append, not_or]
  refine ⟨⟨?_, ?_⟩, newline_not_mem_digitsInto _ _ [] (by simp)⟩
  · split_ifs <;> simp
  · intro h
    have := List.eq_of_mem_replicate h
    exact absurd this (by decide)

theorem newline_not_mem_appendNano (n : Nat) : '\n' ∉ appendNano n := by
  have hb : '\n' ∉ ('.' :: appendInt n 9).rdropWhile (fun c => c = '0') := by
    intro h
    have h3 := (List.rdropWhile_prefix _ _).subset h
    simp only [List.mem_cons] at h3
    rcases h3 with h3 | h3
    · exact absurd h3 (by decide)
    · exact newline_not_mem_appendInt _ _ h3
  unfold appendNano
  by_cases h0 : n = 0
  · simp [h0]
  · simp only [h0, if_false]
    split_ifs
    · exact fun h => hb ((List.dropLast_prefix _).subset h)
    · exact hb

theorem newline_not_mem_formatRFC3339Nano (t : Time) : '\n' ∉ t.formatRFC3339Nano := by
  unfold Time.formatRFC3339Nano
  have hI := newline_not_mem_appendInt
  have hN := newline_not_mem_appendNano t.nanosecond
  simp only [List.mem_append, not_or, List.mem_singleton]
  refine ⟨⟨⟨⟨⟨⟨⟨⟨⟨⟨⟨⟨hI _ _, by decide⟩, hI _ _⟩, by decide⟩, hI _ _⟩, by decide⟩, hI _ _⟩,
    by decide⟩, hI _ _⟩, by decide⟩, hI _ _⟩, hN⟩, ?_⟩
  split_ifs with h0 h1
  · simp
  · simp only [List.mem_append, not_or, List.mem_singleton]
    exact ⟨⟨⟨by simp, hI _ _⟩, by decide⟩, hI _ _⟩
  · simp only [List.mem_append, not_or, List.mem_singleton]
    exact ⟨⟨⟨by simp, hI _ _⟩, by decide⟩, hI _ _⟩

theorem newline_not_mem_escapeChar (c : Char) : '\n' ∉ escapeChar c := by
  unfold escapeChar
  have hx := hexChar_ne_newline
  split_ifs with h1 h2 h3 h4 h5 h6 h7 h8
  · rcases h1 with h1 | h1 <;> subst h1 <;> decide
  · decide
  · decide
  · decide
  · decide
  · decide
  · simp only [List.mem_cons, List.mem_singleton, not_or, List.not_mem_nil, not_false_eq_true,
      and_true]
    exact ⟨by decide, by decide, by decide, by decide, fun h => hx _ h.symm, fun h => hx _ h.symm⟩
  · simp only [List.mem_cons, List.mem_singleton, not_or, List.not_mem_nil, not_false_eq_true,
      and_true]
    exact ⟨by decide, by decide, by decide, by decide, by decide, fun h => hx _ h.symm⟩
  · simp only [List.mem_singleton]
    exact fun h => h4 h.symm

theorem newline_not_mem_quote (s : Str) : '\n' ∉ quote s := by
  unfold quote
  simp only [List.mem_append, List.mem_singleton, List.mem_flatMap, not_or, not_exists, not_and]
  exact ⟨⟨by decide, fun c _ => newline_not_mem_escapeChar c⟩, by decide⟩

theorem Marshal_of_representable (page : Page) (h : page.CrawledAt.representable = true) :
    Marshal page = some (jsonLine page) := by
  simp [Marshal, Time.MarshalJSON, h, jsonLine]

theorem Marshal_eq_none_iff (page : Page) :
    Marshal page = none ↔ page.CrawledAt.representable = false := by
  cases h : page.CrawledAt.representable <;> simp [Marshal, Time.MarshalJSON, h]

theorem newline_not_mem_jsonLine (page : Page) : '\n' ∉ jsonLine page := by
  unfold jsonLine
  simp only [List.mem_append, not_or]
  exact ⟨⟨⟨⟨⟨⟨by decide, newline_not_mem_quote _⟩, by decide⟩, newline_not_mem_quote _⟩,
    by decide⟩, newline_not_mem_formatRFC3339Nano _⟩, by decide⟩

theorem jsonLine_ne_nil (page : Page) : jsonLine page ≠ [] := by
  simp [jsonLine]

theorem emit_eq (file : Str) (page : Page) :
    emit file page = file ++ (Marshal page).getD [] ++ ['\n'] := by
  simp [emit, emitWrites, Write]

theorem emitAll_eq (pages : List Page) (h : ∀ p ∈ pages, p.CrawledAt.representable = true) :
    ∀ file, emitAll file pages = file ++ pages.flatMap (fun p => jsonLine p ++ ['\n']) := by
  induction pages with
  | nil => intro file; simp [emitAll]
  | cons p ps ih =>
    intro file
    have hp := Marshal_of_representable p (h p (List.mem_cons_self _ _))
    have ih2 := ih (fun q hq => h q (List.mem_cons_of_mem _ hq)) (emit file p)
    simp only [emitAll] at ih2 ⊢
    rw [List.foldl_cons, ih2, emit_eq, hp]
    simp

theorem splitOn_lines (lines : List Str) (h : ∀ l ∈ lines, '\n' ∉ l) :
    (lines.flatMap (fun l => l ++ ['\n'])).splitOn '\n' = lines ++ [[]] := by
  induction lines with
  | nil => rfl
  | cons l ls ih =>
    have hl : ∀ x ∈ l, ¬ ((fun c => c == '\n') x = true) := by
      intro x hx hxe
      have : x = '\n' := by simpa using hxe
      exact h l (List.mem_cons_self _ _) (this ▸ hx)
    have ih2 := ih (fun m hm => h m (List.mem_cons_of_mem _ hm))
    simp only [List.splitOn] at ih2 ⊢
    rw [List.flatMap_cons, List.append_assoc, List.singleton_append,
      List.splitOnP_first _ l hl '\n' (by simp), ih2]
    rfl

/-- C7, refuted as stated: a record whose time lies in the year 10000 has no JSON
object, and emitting it after another record leaves an empty line in the output. -/
theorem C7_counterexample :
    Marshal lateRecord = none ∧
    emitAll [] [pageA, lateRecord] = jsonLine pageA ++ ['\n', '\n'] ∧
    (emitAll [] [pageA, lateRecord]).splitOn '\n' = [jsonLine pageA, [], []] :=
  ⟨by decide, by decide, by decide⟩

/-- C7, amended: for records that `json.Marshal` serialises (the time has a year of four
digits and a zone hour below 24), emitted one after another, the output is the
concatenation per record of the compact JSON object with the keys url, text and
crawled_at and one newline; no such object is empty or holds a newline, and cutting the
output at the newlines gives exactly the objects and an empty rest. -/
theorem C7_sequential_output (pages : List Page)
    (h : ∀ p ∈ pages, p.CrawledAt.representable = true) :
    (∀ file, emitAll file pages = file ++ pages.flatMap (fun p => jsonLine p ++ ['\n'])) ∧
    (∀ p ∈ pages, Marshal p = some (jsonLine p) ∧ jsonLine p ≠ [] ∧ '\n' ∉ jsonLine p) ∧
    (emitAll [] pages).splitOn '\n' = pages.map jsonLine ++ [[]] := by
  refine ⟨emitAll_eq pages h, ?_, ?_⟩
  · intro p hp
    exact ⟨Marshal_of_representable p (h p hp), jsonLine_ne_nil p, newline_not_mem_jsonLine p⟩
  · rw [emitAll_eq pages h, List.nil_append]
    have := splitOn_lines (pages.map jsonLine) (by
      intro l hl
      obtain ⟨p, _, rfl⟩ := List.mem_map.mp hl
      exact newline_not_mem_jsonLine p)
    rw [← this, List.flatMap_def, List.flatMap_def, List.map_map]
    rfl

/-- C7 (amended) at two records. -/
theorem C7_sequential_output_witness :
    (∀ p ∈ [pageA, pageB], p.CrawledAt.representable = true) ∧
    (emitAll [] [pageA, pageB]).splitOn '\n' = [jsonLine pageA, jsonLine pageB, []] ∧
    jsonLine pageA =
      "\x7b\"url\":\"https://en.wikipedia.org/wiki/A\",\"text\":\"A\",\"crawled_at\":\"2024-01-02T15:04:05.123456789Z\"\x7d".toList :=
  have h : ∀ p ∈ [pageA, pageB], p.CrawledAt.representable = true := by decide
  ⟨h, (C7_sequential_output [pageA, pageB] h).2.2, by decide⟩

/-- C9, refuted as stated: for a record whose time lies in the year 10000 `json.Marshal`
fails, and the emission still appends a newline to the output. -/
theorem C9_counterexample :
    Marshal lateRecord = none ∧ emit [] lateRecord = ['\n'] ∧
    emit (jsonLine pageA ++ ['\n']) lateRecord ≠ jsonLine pageA ++ ['\n'] :=
  ⟨by decide, by decide, by decide⟩

/-- C9, amended: when serialising a record fails, none of its JSON is written, and the
newline still is: the output grows by exactly one newline. -/
theorem C9_failed_marshal_writes_newline (file : Str) (page : Page)
    (h : Marshal page = none) : emit file page = file ++ ['\n'] := by
  simp [emit_eq, h]

/-- C9 (amended) at the record of the year 10000. -/
theorem C9_failed_marshal_writes_newline_witness :
    Marshal lateRecord = none ∧
    emit (jsonLine pageA ++ ['\n']) lateRecord = (jsonLine pageA ++ ['\n']) ++ ['\n'] :=
  ⟨by decide, C9_failed_marshal_writes_newline _ lateRecord (by decide)⟩

set_option maxRecDepth 8000 in
/-- C8, on the code: with two callbacks at work, the schedule in which each writes its
JSON before either writes its newline puts the JSON of the second record between the
JSON of the first and its newline; the first record and its newline are not contiguous
in the output. -/
theorem C8_interleaved_writes :
    interleave [0, 1, 0, 1] [emitWrites pageA, emitWrites pageB] []
      = jsonLine pageA ++ jsonLine pageB ++ ['\n', '\n'] ∧
    ¬ (jsonLine pageA ++ ['\n'] <:+:
        interleave [0, 1, 0, 1] [emitWrites pageA, emitWrites pageB] []) ∧
    interleave [0, 0, 1, 1] [emitWrites pageA, emitWrites pageB] []
      = emitAll [] [pageA, pageB] :=
  ⟨by decide, by decide, by decide⟩

/-! ## The collector -/

theorem emitAll_append (file : Str) (a b : List Page) :
    emitAll file (a ++ b) = emitAll (emitAll file a) b := by
  simp [emitAll, List.foldl_append]

theorem onHTML_eq (e : Node) (url : Str) (now : Time) (file : Str) :
    onHTML e url now file = emitAll file (buildPage e url now).toList := by
  cases h : buildPage e url now <;> simp [onHTML, h, emitAll]

theorem runCallbacks_eq (url : Str) (clock : Nat → Time) :
    ∀ (es : List Node) (i : Nat) (file : Str),
      runCallbacks url clock i es file = emitAll file (pagesFrom url clock i es) := by
  intro es
  induction es with
  | nil => intro i file; simp [runCallbacks, pagesFrom, emitAll]
  | cons e es ih =>
    intro i file
    rw [runCallbacks, pagesFrom, emitAll_append, ih, onHTML_eq]

theorem pagesFrom_eq (url : Str) (clock : Nat → Time) :
    ∀ (es : List Node) (i : Nat),
      pagesFrom url clock i es
        = (es.enumFrom i).filterMap (fun ie => buildPage ie.2 url (clock ie.1)) := by
  intro es
  induction es with
  | nil => intro i; rfl
  | cons e es ih =>
    intro i
    rw [pagesFrom, ih, List.enumFrom_cons, List.filterMap_cons]
    cases buildPage e url (clock i) <;> simp

theorem length_pagesFrom_le (url : Str) (clock : Nat → Time) (es : List Node) (i : Nat) :
    (pagesFrom url clock i es).length ≤ es.length := by
  rw [pagesFrom_eq]
  exact (List.length_filterMap_le _ _).trans (by simp)

theorem length_crawlPages_le (visits : List (Option Response))
    (h : ∀ r, some r ∈ visits → (r.doc.Find bodySelector).length ≤ 1) :
    (crawlPages visits).length ≤ visits.length := by
  induction visits with
  | nil => simp [crawlPages]
  | cons v vs ih =>
    have ih2 := ih (fun r hr => h r (List.mem_cons_of_mem _ hr))
    simp only [crawlPages] at ih2 ⊢
    rw [List.flatMap_cons, List.length_append, List.length_cons]
    have hv : (match v with
        | none => []
        | some r => pagesOf r).length ≤ 1 := by
      cases v with
      | none => simp
      | some r =>
        exact (length_pagesFrom_le _ _ _ _).trans (h r (List.mem_cons_self _ _))
    omega

/-- C5, refuted as stated: a page with two elements `div.mw-parser-output` side by side
yields two records, the second with the text of the second element; with one inside
the other the inner text is extracted twice; one URL line then gives two records. -/
theorem C5_counterexample :
    pagesOf siblingsResponse =
      [⟨sampleURL, "First.".toList, sampleTime⟩, ⟨sampleURL, "Second.".toList, sampleTime⟩] ∧
    pagesOf nestedResponse =
      [⟨sampleURL, "Outer. Inner.".toList, sampleTime⟩,
        ⟨sampleURL, "Inner.".toList, sampleTime⟩] ∧
    ¬ (crawlPages [some siblingsResponse]).length ≤ [some siblingsResponse].length :=
  ⟨by decide, by decide, by decide⟩

/-- C5, amended: the callback runs once on every element `div.mw-parser-output` matches,
in document order, and each run builds at most one record from its own element, so a
page yields at most as many records as it has matching elements; when every fetched page
has at most one matching element, the records, in whatever order they are emitted, are
at most as many as the URL lines. -/
theorem C5_one_record_per_matching_element :
    (∀ (r : Response) (file : Str), handleOnHTML r file = emitAll file (pagesOf r)) ∧
    (∀ r : Response, pagesOf r =
      ((r.doc.Find bodySelector).enum).filterMap
        (fun ie => buildPage ie.2 r.url (r.clock ie.1))) ∧
    (∀ r : Response, (pagesOf r).length ≤ (r.doc.Find bodySelector).length) ∧
    (∀ (visits : List (Option Response)) (records : List Page),
      records.Perm (crawlPages visits) →
      (∀ r, some r ∈ visits → (r.doc.Find bodySelector).length ≤ 1) →
        records.length ≤ visits.length) :=
  ⟨fun r file => runCallbacks_eq r.url r.clock _ 0 file,
    fun r => pagesFrom_eq r.url r.clock _ 0,
    fun r => length_pagesFrom_le r.url r.clock _ 0,
    fun visits _ hperm h => hperm.length_eq ▸ length_crawlPages_le visits h⟩

/-- C5 (amended) at two pages with one article body each and one failed visit, the record
of the second page emitted first. -/
theorem C5_one_record_per_matching_element_witness :
    [pageOfB, pageOfA].Perm (crawlPages [some responseA, none, some responseB]) ∧
    (∀ r, some r ∈ [some responseA, none, some responseB] →
      (r.doc.Find bodySelector).length ≤ 1) ∧
    [pageOfB, pageOfA].length ≤ [some responseA, none, some responseB].length :=
  have hp : [pageOfB, pageOfA].Perm (crawlPages [some responseA, none, some responseB]) := by
    have he : crawlPages [some responseA, none, some responseB] = [pageOfA, pageOfB] := by
      decide
    rw [he]
    exact List.Perm.swap _ _ _
  have h : ∀ r, some r ∈ [some responseA, none, some responseB] →
      (r.doc.Find bodySelector).length ≤ 1 := by
    intro r hr
    have : r = responseA ∨ r = responseB := by simpa using hr
    rcases this with h1 | h1 <;> subst h1 <;> decide
  ⟨hp, h, C5_one_record_per_matching_element.2.2.2 _ _ hp h⟩

/-! ## readURLs -/

theorem TrimSpace_nil : TrimSpace [] = [] := rfl

theorem TrimSpace_concat_space (l : Str) (c : Char) (hc : IsSpace c = true) :
    TrimSpace (l ++ [c]) = TrimSpace l := by
  induction l with
  | nil => simp [TrimSpace, hc, List.rdropWhile]
  | cons a l ih =>
    by_cases ha : IsSpace a = true
    · simpa [TrimSpace, List.dropWhile_cons, ha] using ih
    · have h1 : (a :: l ++ [c]).dropWhile IsSpace = (a :: l) ++ [c] := by
        simp [List.dropWhile_cons, ha]
      have h2 : (a :: l).dropWhile IsSpace = a :: l := by
        simp [List.dropWhile_cons, ha]
      simp only [TrimSpace]
      rw [h1, h2, List.rdropWhile_concat_pos _ _ _ hc]

theorem TrimSpace_dropCR (l : Str) : TrimSpace (dropCR l) = TrimSpace l := by
  unfold dropCR
  split_ifs with h
  · have hl : l = l.dropLast ++ ['\r'] := by
      have hne : l ≠ [] := by
        intro h0; subst h0; simp at h
      have h2 := List.dropLast_append_getLast hne
      rw [List.getLast?_eq_getLast _ hne] at h
      have h3 : l.getLast hne = '\r' := by simpa using h
      rw [h3] at h2
      exact h2.symm
    conv_rhs => rw [hl]
    rw [TrimSpace_concat_space _ _ (by decide)]
  · rfl

theorem splitOn_newline (data : Str) :
    data.splitOn '\n' =
      match data.dropWhile (fun x => x != '\n') with
      | [] => [data.takeWhile (fun x => x != '\n')]
      | _ :: rest => data.takeWhile (fun x => x != '\n') :: rest.splitOn '\n' := by
  have htd := List.takeWhile_append_dropWhile (fun x => x != '\n') data
  have htake : ∀ x ∈ data.takeWhile (fun x => x != '\n'), ¬ ((fun c => c == '\n') x = true) := by
    intro x hx hxe
    have h1 := List.mem_takeWhile_imp hx
    have h2 : x = '\n' := by simpa using hxe
    subst h2
    simp at h1
  cases hd : data.dropWhile (fun x => x != '\n') with
  | nil =>
    rw [hd, List.append_nil] at htd
    show data.splitOnP (fun c => c == '\n') = _
    conv_lhs => rw [← htd]
    exact List.splitOnP_eq_single _ _ htake
  | cons y rest =>
    have hy : y = '\n' := by
      have := List.head_dropWhile_not (fun x => x != '\n') data (by simp [hd])
      simpa [hd] using this
    rw [hd, hy] at htd
    show data.splitOnP (fun c => c == '\n') = _
    conv_lhs => rw [← htd]
    exact List.splitOnP_first _ _ htake '\n' (by simp) rest

theorem urlLines_nil : urlLines [] = [] := by decide

theorem urlLines_cons (c : Char) (cs : Str) :
    urlLines (c :: cs) =
      (if TrimSpace ((c :: cs).takeWhile (fun x => x != '\n')) = [] then []
        else [TrimSpace ((c :: cs).takeWhile (fun x => x != '\n'))])
      ++ urlLines ((c :: cs).dropWhile (fun x => x != '\n')).tail := by
  have h := splitOn_newline (c :: cs)
  cases hd : (c :: cs).dropWhile (fun x => x != '\n') with
  | nil =>
    rw [hd] at h
    simp only [urlLines, h, List.tail_nil, List.splitOn_nil, List.map_cons, List.map_nil]
    by_cases ht : TrimSpace ((c :: cs).takeWhile (fun x => x != '\n')) = []
    · simp [ht, TrimSpace_nil]
    · simp [ht, TrimSpace_nil]
  | cons y rest =>
    rw [hd] at h
    simp only [urlLines, h, List.tail_cons, List.map_cons]
    by_cases ht : TrimSpace ((c :: cs).takeWhile (fun x => x != '\n')) = []
    · simp [ht]
    · simp [ht]

theorem tooLong_cons (c : Char) (cs : Str) :
    (∃ l ∈ (c :: cs).splitOn '\n', MaxScanTokenSize ≤ utf8Len l) ↔
      MaxScanTokenSize ≤ utf8Len ((c :: cs).takeWhile (fun x => x != '\n')) ∨
      ∃ l ∈ (((c :: cs).dropWhile (fun x => x != '\n')).tail).splitOn '\n',
        MaxScanTokenSize ≤ utf8Len l := by
  have h := splitOn_newline (c :: cs)
  cases hd : (c :: cs).dropWhile (fun x => x != '\n') with
  | nil =>
    rw [hd] at h
    rw [h]
    simp [utf8Len, MaxScanTokenSize]
  | cons y rest =>
    rw [hd] at h
    rw [h]
    simp

theorem length_tail_dropWhile_lt (c : Char) (cs : Str) (p : Char → Bool) :
    (((c :: cs).dropWhile p).tail).length < (c :: cs).length := by
  have h1 : ((c :: cs).dropWhile p).length ≤ (c :: cs).length :=
    (List.dropWhile_suffix p).length_le
  have h2 : (((c :: cs).dropWhile p).tail).length = ((c :: cs).dropWhile p).length - 1 :=
    List.length_tail _
  have h3 : 0 < (c :: cs).length := by simp
  omega

theorem scanLoop_spec :
    ∀ (fuel : Nat) (data : Str) (rf : Bool) (tok : Str) (acc : List Str), data.length < fuel →
      ((∃ l ∈ data.splitOn '\n', MaxScanTokenSize ≤ utf8Len l) →
        (scanLoop fuel ⟨data, rf, tok, none⟩ acc).1.err = some Error.tooLong) ∧
      ((¬ ∃ l ∈ data.splitOn '\n', MaxScanTokenSize ≤ utf8Len l) →
        (scanLoop fuel ⟨data, rf, tok, none⟩ acc).1.err
            = (if rf = true then some Error.readFailed else none) ∧
        (scanLoop fuel ⟨data, rf, tok, none⟩ acc).2 = acc ++ urlLines data) := by
  intro fuel
  induction fuel with
  | zero => intro data rf tok acc h; omega
  | succ fuel ih =>
    intro data rf tok acc hlen
    cases data with
    | nil =>
      refine ⟨?_, ?_⟩
      · intro h
        simp [utf8Len, MaxScanTokenSize] at h
      · intro _
        simp [scanLoop, Scanner.Scan, urlLines_nil]
    | cons c cs =>
      have hlt := length_tail_dropWhile_lt c cs (fun x => x != '\n')
      have hfuel : (((c :: cs).dropWhile (fun x => x != '\n')).tail).length < fuel := by omega
      by_cases hlong : MaxScanTokenSize ≤ utf8Len ((c :: cs).takeWhile (fun x => x != '\n'))
      · refine ⟨?_, ?_⟩
        · intro _
          simp [scanLoop, Scanner.Scan, hlong]
        · intro h
          exact absurd ((tooLong_cons c cs).mpr (Or.inl hlong)) h
      · have hstep : ∀ acc2 : List Str,
            scanLoop (fuel + 1) ⟨c :: cs, rf, tok, none⟩ acc2 =
              scanLoop fuel
                ⟨((c :: cs).dropWhile (fun x => x != '\n')).tail, rf,
                  dropCR ((c :: cs).takeWhile (fun x => x != '\n')), none⟩
                (if TrimSpace ((c :: cs).takeWhile (fun x => x != '\n')) ≠ [] then
                  acc2 ++ [TrimSpace ((c :: cs).takeWhile (fun x => x != '\n'))] else acc2) := by
          intro acc2
          simp only [scanLoop, Scanner.Scan, hlong, if_false, TrimSpace_dropCR]
        rw [hstep]
        have ih2 := ih (((c :: cs).dropWhile (fun x => x != '\n')).tail) rf
          (dropCR ((c :: cs).takeWhile (fun x => x != '\n')))
          (if TrimSpace ((c :: cs).takeWhile (fun x => x != '\n')) ≠ [] then
            acc ++ [TrimSpace ((c :: cs).takeWhile (fun x => x != '\n'))] else acc) hfuel
        refine ⟨?_, ?_⟩
        · intro h
          rcases (tooLong_cons c cs).mp h with h1 | h1
          · exact absurd h1 hlong
          · exact ih2.1 h1
        · intro h
          have h1 : ¬ ∃ l ∈ (((c :: cs).dropWhile (fun x => x != '\n')).tail).splitOn '\n',
              MaxScanTokenSize ≤ utf8Len l :=
            fun hex => h ((tooLong_cons c cs).mpr (Or.inr hex))
          obtain ⟨he, hu⟩ := ih2.2 h1
          refine ⟨he, ?_⟩
          rw [hu, urlLines_cons]
          by_cases ht : TrimSpace ((c :: cs).takeWhile (fun x => x != '\n')) = []
          · simp [ht]
          · simp [ht]

theorem TrimSpace_ends (l : Str) (h : TrimSpace l ≠ []) :
    (∀ c, (TrimSpace l).head? = some c → IsSpace c = false) ∧
    (∀ c, (TrimSpace l).getLast? = some c → IsSpace c = false) := by
  refine ⟨?_, ?_⟩
  · intro c hc
    obtain ⟨t, ht⟩ := List.rdropWhile_prefix IsSpace (l.dropWhile IsSpace)
    have hne : l.dropWhile IsSpace ≠ [] := by
      intro h0
      apply h
      simp [TrimSpace, h0, List.rdropWhile]
    have hhead := List.head_dropWhile_not IsSpace l hne
    have h2 : (l.dropWhile IsSpace).head? = some c := by
      rw [← ht]
      cases hu : (l.dropWhile IsSpace).rdropWhile IsSpace with
      | nil => exact absurd hu h
      | cons a u =>
        have : TrimSpace l = a :: u := hu
        rw [this] at hc
        simpa using hc
    rw [List.head?_eq_head hne] at h2
    have h3 : (l.dropWhile IsSpace).head hne = c := by simpa using h2
    rw [← h3]
    simpa using hhead
  · intro c hc
    have hlast := List.rdropWhile_last_not IsSpace (l.dropWhile IsSpace) h
    have h2 : (TrimSpace l).getLast? = some ((TrimSpace l).getLast h) :=
      List.getLast?_eq_getLast _ h
    rw [h2] at hc
    have h3 : (TrimSpace l).getLast h = c := by simpa using hc
    rw [← h3]
    simpa [TrimSpace] using hlast

/-- C10: `readURLs` fails with no URLs when the file cannot be opened, when a line does
not fit the scanner's buffer and when reading fails; on any other input it returns,
without error, the lines of the input trimmed, in order, the blank ones left out. Every
URL returned is non-empty and neither starts nor ends with white space; an empty input
and one of blank lines give no URL. -/
theorem C10_readURLs (fs : Str → Option File) (filename : Str) :
    (fs filename = none → readURLs fs filename = ([], some Error.notOpened)) ∧
    (∀ file, fs filename = some file →
      ((∃ l ∈ file.data.splitOn '\n', MaxScanTokenSize ≤ utf8Len l) →
        readURLs fs filename = ([], some Error.tooLong)) ∧
      ((∀ l ∈ file.data.splitOn '\n', utf8Len l < MaxScanTokenSize) → file.readFails = true →
        readURLs fs filename = ([], some Error.readFailed)) ∧
      ((∀ l ∈ file.data.splitOn '\n', utf8Len l < MaxScanTokenSize) → file.readFails = false →
        readURLs fs filename = (urlLines file.data, none))) ∧
    (∀ data : Str, ∀ u ∈ urlLines data,
      u ≠ [] ∧ (∀ c, u.head? = some c → IsSpace c = false) ∧
        (∀ c, u.getLast? = some c → IsSpace c = false)) ∧
    urlLines [] = [] ∧ urlLines "\n  \n\t\r\n".toList = [] := by
  refine ⟨?_, ?_, ?_, by decide, by decide⟩
  · intro h
    simp [readURLs, h]
  · intro file hfile
    have hspec := scanLoop_spec (file.data.length + 1) file.data file.readFails [] []
      (Nat.lt_succ_self _)
    have hshort : (∀ l ∈ file.data.splitOn '\n', utf8Len l < MaxScanTokenSize) →
        ¬ ∃ l ∈ file.data.splitOn '\n', MaxScanTokenSize ≤ utf8Len l := by
      intro h hex
      obtain ⟨l, hl, hlong⟩ := hex
      exact absurd (h l hl) (not_lt.mpr hlong)
    have hread : readURLs fs filename =
        match (scanLoop (file.data.length + 1) ⟨file.data, file.readFails, [], none⟩ []).1.err with
        | some err => ([], some err)
        | none =>
          ((scanLoop (file.data.length + 1) ⟨file.data, file.readFails, [], none⟩ []).2, none) := by
      simp only [readURLs, hfile]
    refine ⟨?_, ?_, ?_⟩
    · intro h
      rw [hread, hspec.1 h]
    · intro h hrf
      obtain ⟨he, _⟩ := hspec.2 (hshort h)
      rw [hread, he]
      simp [hrf]
    · intro h hrf
      obtain ⟨he, hu⟩ := hspec.2 (hshort h)
      rw [hread, he, hu]
      simp [hrf]
  · intro data u hu
    unfold urlLines at hu
    obtain ⟨hu1, hu2⟩ := List.mem_filter.mp hu
    obtain ⟨l, _, rfl⟩ := List.mem_map.mp hu1
    have hne : TrimSpace l ≠ [] := by simpa using hu2
    exact ⟨hne, TrimSpace_ends l hne⟩

/-- C10 at a file with two URLs among blank lines. -/
theorem C10_readURLs_witness :
    sampleFs "urls.txt".toList = some sampleInput ∧
    (∀ l ∈ sampleInput.data.splitOn '\n', utf8Len l < MaxScanTokenSize) ∧
    readURLs sampleFs "urls.txt".toList =
      (["https://en.wikipedia.org/wiki/A".toList, "https://en.wikipedia.org/wiki/B".toList],
        none) ∧
    readURLs sampleFs "missing.txt".toList = ([], some Error.notOpened) :=
  have h1 : sampleFs "urls.txt".toList = some sampleInput := by decide
  have h2 : ∀ l ∈ sampleInput.data.splitOn '\n', utf8Len l < MaxScanTokenSize := by decide
  ⟨h1, h2,
    (((C10_readURLs sampleFs "urls.txt".toList).2.1 sampleInput h1).2.2 h2 rfl).trans
      (by decide),
    (C10_readURLs sampleFs "missing.txt".toList).1 (by decide)⟩

end WikipediaScraper
